import Mathlib

set_option linter.unusedVariables false

/-!
Shallow embedding of the `stazoone/ImageProcessing` repository (grayscale
image toolkit: `Image.cpp`, `Drawing.cpp`, `ImageProcessing.cpp`) and proofs
about its claimed properties.

Machine integers are modelled as `Nat`/`Int`; `unsigned int` arithmetic that
can wrap is written with an explicit `% 2^32`.  `double` arithmetic that is
exact on the values actually reached (small integers, kernel weights) is
modelled as `ℚ`.  Out-of-bounds raw accesses are undefined behaviour in the
C++ source; the model totalises them with a default value, and every theorem
below depends only on in-bounds accesses of well-formed images (except where
a theorem explicitly exhibits an out-of-bounds write attempt).
-/

/-- `tabulate n f = [f 0, f 1, ..., f (n-1)]`: the list produced by a C++
`for (i = 0; i < n; ++i)` loop writing `f i` at position `i`. -/
def tabulate {α : Type} (n : Nat) (f : Nat → α) : List α :=
  (List.range n).map f

/-- The `Image` class (Image.h / Image.cpp): `rows` models the row array
`m_data` (`m_data[y][x]` is row `y`, column `x`), `width`/`height` model
`m_width`/`m_height`. -/
structure Image where
  width : Nat
  height : Nat
  rows : List (List Nat)
deriving DecidableEq

/-- The default-constructed `Image()` (Image.cpp:11): null data, zero
dimensions — the canonical empty image. -/
def Image.empty : Image := ⟨0, 0, []⟩

/-- Representation invariant of every reachable C++ `Image`: `m_data` has
`m_height` rows of `m_width` bytes each, every sample being an
`unsigned char` value `< 256`. -/
def Image.wf (img : Image) : Prop :=
  img.rows.length = img.height ∧
    ∀ r ∈ img.rows, r.length = img.width ∧ ∀ p ∈ r, p < 256

instance (img : Image) : Decidable img.wf := by
  unfold Image.wf; infer_instance

/-- `Image::at(x, y)` (Image.cpp:335) returns `m_data[y][x]`.  Out-of-range
access is undefined behaviour in C++; the model returns 0 there, and no
theorem below relies on the out-of-range value. -/
def Image.atPix (img : Image) (x y : Nat) : Nat :=
  (img.rows.getD y []).getD x 0

/-- Writing `m_data[y][x] = v` (the assignment through `Image::at`).  For
out-of-range indices `List.set` is the identity; the callers below only
write in bounds. -/
def Image.setPix (img : Image) (x y v : Nat) : Image :=
  { img with rows := img.rows.set y ((img.rows.getD y []).set x v) }

/-- Image produced by a double loop `for y, for x: result.at(x,y) = f x y`
over fresh storage of dimensions `w × h` (the shape of every
constructor-then-fill loop in the source). -/
def mkImage (w h : Nat) (f : Nat → Nat → Nat) : Image :=
  ⟨w, h, tabulate h (fun y => tabulate w (fun x => f x y))⟩

/-- An image all of whose pixels hold the same value `v` (such as the
results of the `zeros` / `ones` factories, Image.cpp:413/429). -/
def constImage (w h v : Nat) : Image :=
  mkImage w h (fun _ _ => v)

/-- `Image::isEmpty` (Image.cpp:309): data pointer null, or either
dimension zero. -/
def Image.isEmpty (img : Image) : Bool :=
  img.rows.isEmpty || img.width == 0 || img.height == 0

/-- `Image::operator+(const Image&)` (Image.cpp:178): returns the default
`Image()` on dimension mismatch, else pixelwise `min(255, a + b)` (the
`unsigned char` operands are promoted to `int`, so the sum is exact). -/
def Image.add (a b : Image) : Image :=
  if a.width ≠ b.width ∨ a.height ≠ b.height then Image.empty
  else mkImage a.width a.height (fun x y => min 255 (a.atPix x y + b.atPix x y))

/-- `Image::operator-(const Image&)` (Image.cpp:202): returns the default
`Image()` on dimension mismatch, else pixelwise `max(0, a - b)` computed in
`int`. -/
def Image.sub (a b : Image) : Image :=
  if a.width ≠ b.width ∨ a.height ≠ b.height then Image.empty
  else mkImage a.width a.height
    (fun x y => (max 0 ((a.atPix x y : Int) - (b.atPix x y : Int))).toNat)

/-- `Image::operator+(unsigned char value)` (Image.cpp:223): pixelwise
`min(255, pixel + value)` in `int`. -/
def Image.addValue (a : Image) (value : Nat) : Image :=
  mkImage a.width a.height (fun x y => min 255 (a.atPix x y + value))

/-- `Image::operator-(unsigned char value)` (Image.cpp:241): pixelwise
`max(0, pixel - value)` in `int`. -/
def Image.subValue (a : Image) (value : Nat) : Image :=
  mkImage a.width a.height
    (fun x y => (max 0 ((a.atPix x y : Int) - (value : Int))).toNat)

/-- `2^32`, the modulus of `unsigned int` arithmetic. -/
def U32 : Nat := 4294967296

/-- `Image::getROI(roiImg, x, y, width, height)` (Image.cpp:291).  The
parameters are `unsigned int`, so `x + width` and the row/column index
expressions wrap modulo `2^32`.  Returns `(success flag, new dst)`: on
guard failure `dst` is untouched; on success `dst` is reallocated to
`width × height` and filled from the source at offset `(x, y)`. -/
def Image.getROI (img dst : Image) (x y w h : Nat) : Bool × Image :=
  if (x + w) % U32 > img.width ∨ (y + h) % U32 > img.height then (false, dst)
  else (true, mkImage w h (fun j i => img.atPix ((x + j) % U32) ((y + i) % U32)))

-- ### elementary lemmas about `tabulate`, `mkImage`, `atPix`, `setPix`

theorem tabulate_length {α : Type} (n : Nat) (f : Nat → α) :
    (tabulate n f).length = n := by
  simp [tabulate]

theorem tabulate_getD {α : Type} {n i : Nat} (f : Nat → α) (d : α) (h : i < n) :
    (tabulate n f).getD i d = f i := by
  simp [tabulate, List.getD, List.getElem?_map, List.getElem?_range h]

theorem tabulate_congr {α : Type} {n : Nat} {f g : Nat → α}
    (h : ∀ i, i < n → f i = g i) : tabulate n f = tabulate n g := by
  simp only [tabulate]
  apply List.map_congr_left
  intro a ha
  exact h a (List.mem_range.mp ha)

theorem mkImage_width (w h : Nat) (f : Nat → Nat → Nat) :
    (mkImage w h f).width = w := rfl

theorem mkImage_height (w h : Nat) (f : Nat → Nat → Nat) :
    (mkImage w h f).height = h := rfl

theorem atPix_mkImage {w h x y : Nat} (f : Nat → Nat → Nat)
    (hx : x < w) (hy : y < h) : (mkImage w h f).atPix x y = f x y := by
  unfold mkImage Image.atPix
  rw [show (⟨w, h, tabulate h fun y => tabulate w fun x => f x y⟩ : Image).rows
      = tabulate h fun y => tabulate w fun x => f x y from rfl,
    tabulate_getD _ _ hy, tabulate_getD _ _ hx]

theorem tabulate_succ {α : Type} (n : Nat) (f : Nat → α) :
    tabulate (n + 1) f = f 0 :: tabulate n (fun i => f (i + 1)) := by
  simp [tabulate, List.range_succ_eq_map, List.map_map, Function.comp_def]

theorem tabulate_getD_self {α : Type} (d : α) (l : List α) :
    tabulate l.length (fun i => l.getD i d) = l := by
  induction l with
  | nil => rfl
  | cons a t ih =>
    rw [List.length_cons, tabulate_succ]
    simp only [List.getD_cons_zero, List.getD_cons_succ]
    rw [ih]

/-- An image satisfying the allocation invariant is exactly the table of its
own pixels: the extensionality principle used to compare loop-built images
with their source. -/
theorem Image.eq_mkImage_of_wf {img : Image}
    (hl : img.rows.length = img.height)
    (hr : ∀ r ∈ img.rows, r.length = img.width) :
    mkImage img.width img.height img.atPix = img := by
  obtain ⟨w, h, rows⟩ := img
  simp only at hl hr
  unfold mkImage
  have hrows : (tabulate h fun y => tabulate w fun x =>
      Image.atPix ⟨w, h, rows⟩ x y) = rows := by
    subst hl
    have step : ∀ y, y < rows.length →
        (tabulate w fun x => Image.atPix ⟨w, rows.length, rows⟩ x y)
          = rows.getD y [] := by
      intro y hy
      have hmem : rows.getD y [] ∈ rows := by
        rw [List.getD_eq_getElem rows [] hy]
        exact List.getElem_mem hy
      have hlen : (rows.getD y []).length = w := hr _ hmem
      have : (tabulate w fun x => Image.atPix ⟨w, rows.length, rows⟩ x y)
          = tabulate (rows.getD y []).length
              (fun x => (rows.getD y []).getD x 0) := by
        rw [hlen]; rfl
      rw [this, tabulate_getD_self]
    rw [tabulate_congr step]
    exact tabulate_getD_self [] rows
  rw [hrows]

theorem setPix_width (img : Image) (x y v : Nat) :
    (img.setPix x y v).width = img.width := rfl

theorem setPix_height (img : Image) (x y v : Nat) :
    (img.setPix x y v).height = img.height := rfl

theorem atPix_setPix_self {img : Image} {x y : Nat} (v : Nat)
    (hl : img.rows.length = img.height)
    (hr : ∀ r ∈ img.rows, r.length = img.width)
    (hx : x < img.width) (hy : y < img.height) :
    (img.setPix x y v).atPix x y = v := by
  have hy' : y < img.rows.length := by omega
  have hrowlen : (img.rows.getD y []).length = img.width := by
    apply hr
    rw [List.getD_eq_getElem img.rows [] hy']
    exact List.getElem_mem hy'
  have hrow : (img.setPix x y v).rows.getD y [] = (img.rows.getD y []).set x v := by
    unfold Image.setPix
    rw [List.getD_eq_getElem?_getD, List.getElem?_set_self hy']
    rfl
  unfold Image.atPix
  rw [hrow, List.getD_eq_getElem?_getD,
    List.getElem?_set_self (by omega : x < (img.rows.getD y []).length)]
  rfl

theorem atPix_setPix_ne {img : Image} {x y qx qy : Nat} (v : Nat)
    (hne : qx ≠ x ∨ qy ≠ y) :
    (img.setPix x y v).atPix qx qy = img.atPix qx qy := by
  rcases Decidable.em (qy = y) with rfl | hqy
  · have hqx : qx ≠ x := by tauto
    rcases Nat.lt_or_ge qy img.rows.length with hlt | hge
    · have hrow : (img.setPix x qy v).rows.getD qy []
          = (img.rows.getD qy []).set x v := by
        unfold Image.setPix
        rw [List.getD_eq_getElem?_getD, List.getElem?_set_self hlt]
        rfl
      unfold Image.atPix
      rw [hrow, List.getD_eq_getElem?_getD,
        List.getElem?_set_ne (by omega : x ≠ qx), ← List.getD_eq_getElem?_getD]
    · unfold Image.setPix Image.atPix
      rw [List.set_eq_of_length_le hge]
  · unfold Image.setPix Image.atPix
    have hrows : (img.rows.set y ((img.rows.getD y []).set x v)).getD qy []
        = img.rows.getD qy [] := by
      rw [List.getD_eq_getElem?_getD, List.getElem?_set_ne (by omega : y ≠ qy),
        ← List.getD_eq_getElem?_getD]
    rw [hrows]

theorem mkImage_congr {w h : Nat} {f g : Nat → Nat → Nat}
    (hfg : ∀ x y, x < w → y < h → f x y = g x y) : mkImage w h f = mkImage w h g := by
  unfold mkImage
  congr 1
  apply tabulate_congr
  intro y hy
  apply tabulate_congr
  intro x hx
  exact hfg x y hx hy

theorem atPix_constImage {w h x y : Nat} (v : Nat) (hx : x < w) (hy : y < h) :
    (constImage w h v).atPix x y = v := by
  unfold constImage
  rw [atPix_mkImage _ hx hy]

/-- Claim C5: adding or subtracting two images whose widths differ or whose
heights differ returns the default-constructed `Image()` — the canonical
empty image — so `isEmpty()` is `true`; no error is signalled (the operators
still return an ordinary `Image`). -/
theorem claim_C5_mismatch_empty (a b : Image)
    (hmm : a.width ≠ b.width ∨ a.height ≠ b.height) :
    (a.add b).isEmpty = true ∧ (a.sub b).isEmpty = true ∧
      a.add b = Image.empty ∧ a.sub b = Image.empty := by
  unfold Image.add Image.sub
  rw [if_pos hmm, if_pos hmm]
  exact ⟨rfl, rfl, rfl, rfl⟩

/-- Witness for C5 at a concrete mismatched pair (2×2 vs 3×2). -/
theorem claim_C5_mismatch_empty_witness :
    ((constImage 2 2 0).width ≠ (constImage 3 2 0).width ∨
      (constImage 2 2 0).height ≠ (constImage 3 2 0).height) ∧
    (((constImage 2 2 0).add (constImage 3 2 0)).isEmpty = true ∧
      ((constImage 2 2 0).sub (constImage 3 2 0)).isEmpty = true ∧
      (constImage 2 2 0).add (constImage 3 2 0) = Image.empty ∧
      (constImage 2 2 0).sub (constImage 3 2 0) = Image.empty) :=
  ⟨by decide, claim_C5_mismatch_empty _ _ (by decide)⟩

/-- Claim C7: for pixel value `v ≤ 255` and constant `c ≤ 255`, adding `c`
to a constant-`v` image gives `min(255, v+c)` at every pixel, and
subtracting `c` gives `max(0, v-c)` (computed in `int`, clamped at 0) at
every pixel; dimensions are preserved. -/
theorem claim_C7_scalar_saturation (w h v c : Nat) (hv : v ≤ 255) (hc : c ≤ 255)
    (x y : Nat) (hx : x < w) (hy : y < h) :
    ((constImage w h v).addValue c).atPix x y = min 255 (v + c) ∧
    ((constImage w h v).subValue c).atPix x y = (max 0 ((v : Int) - (c : Int))).toNat ∧
    ((constImage w h v).addValue c).width = w ∧
    ((constImage w h v).addValue c).height = h ∧
    ((constImage w h v).subValue c).width = w ∧
    ((constImage w h v).subValue c).height = h := by
  refine ⟨?_, ?_, rfl, rfl, rfl, rfl⟩
  · unfold Image.addValue
    simp only [constImage, mkImage_width, mkImage_height]
    rw [atPix_mkImage _ hx hy, atPix_mkImage _ hx hy]
  · unfold Image.subValue
    simp only [constImage, mkImage_width, mkImage_height]
    rw [atPix_mkImage _ hx hy, atPix_mkImage _ hx hy]

/-- Witness for C7 at `v = 250`, `c = 20` on a 3×2 image, pixel (2,1). -/
theorem claim_C7_scalar_saturation_witness :
    250 ≤ 255 ∧ 20 ≤ 255 ∧ 2 < 3 ∧ 1 < 2 ∧
    ((constImage 3 2 250).addValue 20).atPix 2 1 = min 255 (250 + 20) ∧
    ((constImage 3 2 250).subValue 20).atPix 2 1
      = (max 0 ((250 : Int) - (20 : Int))).toNat :=
  ⟨by decide, by decide, by decide, by decide,
    (claim_C7_scalar_saturation 3 2 250 20 (by decide) (by decide) 2 1
      (by decide) (by decide)).1,
    (claim_C7_scalar_saturation 3 2 250 20 (by decide) (by decide) 2 1
      (by decide) (by decide)).2.1⟩

/-- Claim C10: pixelwise image addition is commutative for all images: with
equal dimensions both orders give `min(255, a[p] + b[p])` at every pixel and
keep the common dimensions, and with mismatched dimensions both orders give
the canonical empty image. -/
theorem claim_C10_add_commutative (a b : Image) :
    a.add b = b.add a ∧
    (a.width = b.width → a.height = b.height →
      ((a.add b).width = a.width ∧ (a.add b).height = a.height ∧
        ∀ x y, x < a.width → y < a.height →
          (a.add b).atPix x y = min 255 (a.atPix x y + b.atPix x y) ∧
          (b.add a).atPix x y = min 255 (a.atPix x y + b.atPix x y))) ∧
    (a.width ≠ b.width ∨ a.height ≠ b.height →
      a.add b = Image.empty ∧ b.add a = Image.empty) := by
  by_cases hmm : a.width ≠ b.width ∨ a.height ≠ b.height
  · have hmm' : b.width ≠ a.width ∨ b.height ≠ a.height := by tauto
    constructor
    · unfold Image.add
      rw [if_pos hmm, if_pos hmm']
    constructor
    · intro hw hh
      exact absurd hw (by tauto)
    · intro _
      unfold Image.add
      rw [if_pos hmm, if_pos hmm']
      exact ⟨rfl, rfl⟩
  · push_neg at hmm
    obtain ⟨hw, hh⟩ := hmm
    have hmmF : ¬(a.width ≠ b.width ∨ a.height ≠ b.height) := by tauto
    have hmmF' : ¬(b.width ≠ a.width ∨ b.height ≠ a.height) := by tauto
    have hba : b.add a
        = mkImage a.width a.height
            (fun x y => min 255 (a.atPix x y + b.atPix x y)) := by
      unfold Image.add
      rw [if_neg hmmF', ← hw, ← hh]
      exact mkImage_congr (fun x y _ _ => by rw [Nat.add_comm])
    have hab : a.add b
        = mkImage a.width a.height
            (fun x y => min 255 (a.atPix x y + b.atPix x y)) := by
      unfold Image.add
      rw [if_neg hmmF]
    constructor
    · rw [hab, hba]
    constructor
    · intro _ _
      refine ⟨by rw [hab]; rfl, by rw [hab]; rfl, ?_⟩
      intro x y hx hy
      rw [hab, hba, atPix_mkImage _ hx hy]
      exact ⟨rfl, rfl⟩
    · intro hcon
      exact absurd hcon (by tauto)

/-- Witness for C10 on the concrete pair 2×1 `[100, 200]` and 2×1 `[7, 200]`
(both orders agree; pixel (1,0) saturates at 255). -/
theorem claim_C10_add_commutative_witness :
    (constImage 2 1 100).add ⟨2, 1, [[7, 200]]⟩
      = (⟨2, 1, [[7, 200]]⟩ : Image).add (constImage 2 1 100) ∧
    ((constImage 2 1 100).add ⟨2, 1, [[7, 200]]⟩).atPix 1 0
      = min 255 ((constImage 2 1 100).atPix 1 0
          + (⟨2, 1, [[7, 200]]⟩ : Image).atPix 1 0) :=
  ⟨(claim_C10_add_commutative _ _).1,
    (((claim_C10_add_commutative (constImage 2 1 100) ⟨2, 1, [[7, 200]]⟩).2.1
      rfl rfl).2.2 1 0 (by decide) (by decide)).1⟩

/-- Counterexample to claim C4 as stated: read with exact (non-wrapping)
arithmetic, `x = 2^32 - 1`, `w = 2` on a 5×5 source gives
`x + w = 2^32 + 1 > 5`, so the claim requires `getROI` to return `false`
and leave `dst` untouched; the code's `unsigned int` addition wraps to
`(x + w) mod 2^32 = 1 ≤ 5`, the guard passes, and the call returns `true`. -/
theorem claim_C4_getROI_counterexample :
    ((constImage 5 5 3).getROI (constImage 1 1 9) (U32 - 1) 0 2 1).1 = true ∧
      (constImage 5 5 3).width < (U32 - 1) + 2 := by
  constructor
  · decide
  · decide

/-- Claim C4 (amended): for arguments whose sums do not overflow `unsigned
int` (`x + w < 2^32` and `y + h < 2^32`), `getROI` returns `false` and
leaves `dst` completely unchanged iff `x + w > img.width` or
`y + h > img.height`; otherwise it returns `true` and fills `dst` with the
`w × h` sub-region at `(x, y)`, and a zero-sized in-bounds region yields a
destination with `isEmpty() = true`. -/
theorem claim_C4_getROI_bounds (img dst : Image) (x y w h : Nat)
    (hxw : x + w < U32) (hyh : y + h < U32) :
    (((img.getROI dst x y w h).1 = false ∧ (img.getROI dst x y w h).2 = dst) ↔
      (img.width < x + w ∨ img.height < y + h)) ∧
    (x + w ≤ img.width → y + h ≤ img.height →
      (img.getROI dst x y w h).1 = true ∧
      (img.getROI dst x y w h).2.width = w ∧
      (img.getROI dst x y w h).2.height = h ∧
      (∀ j i, j < w → i < h →
        (img.getROI dst x y w h).2.atPix j i = img.atPix (x + j) (y + i)) ∧
      ((w = 0 ∨ h = 0) → (img.getROI dst x y w h).2.isEmpty = true)) := by
  have hmod1 : (x + w) % U32 = x + w := Nat.mod_eq_of_lt hxw
  have hmod2 : (y + h) % U32 = y + h := Nat.mod_eq_of_lt hyh
  unfold Image.getROI
  rw [hmod1, hmod2]
  by_cases hc : img.width < x + w ∨ img.height < y + h
  · rw [if_pos hc]
    refine ⟨⟨fun _ => hc, fun _ => ⟨rfl, rfl⟩⟩, ?_⟩
    intro h1 h2
    exact absurd hc (by omega)
  · rw [if_neg hc]
    push_neg at hc
    refine ⟨⟨fun hfd => absurd hfd.1 (by simp), fun hcond => absurd hcond (by omega)⟩, ?_⟩
    intro h1 h2
    refine ⟨rfl, rfl, rfl, ?_, ?_⟩
    · intro j i hj hi
      rw [atPix_mkImage _ hj hi,
        Nat.mod_eq_of_lt (by omega : x + j < U32),
        Nat.mod_eq_of_lt (by omega : y + i < U32)]
    · rintro (rfl | rfl) <;> simp [Image.isEmpty, mkImage]

/-- Witness for the amended C4 at a concrete in-bounds region (success
branch of the iff at `x=1, y=2, w=3, h=2` on a 5×5 source). -/
theorem claim_C4_getROI_bounds_witness :
    1 + 3 < U32 ∧ 2 + 2 < U32 ∧
    ((((constImage 5 5 3).getROI (constImage 1 1 9) 1 2 3 2).1 = false ∧
        ((constImage 5 5 3).getROI (constImage 1 1 9) 1 2 3 2).2 = constImage 1 1 9) ↔
      ((constImage 5 5 3).width < 1 + 3 ∨ (constImage 5 5 3).height < 2 + 2)) :=
  ⟨by decide, by decide,
    (claim_C4_getROI_bounds (constImage 5 5 3) (constImage 1 1 9) 1 2 3 2
      (by decide) (by decide)).1⟩

-- ### Filters (ImageProcessing.cpp)

/-- `std::min(255, std::max(0, z))` assigned to an `unsigned char` — the
clamp applied by the filters; the clamped value is in `[0, 255]` so the
narrowing conversion is exact. -/
def clampByte (z : Int) : Nat := (min 255 (max 0 z)).toNat

/-- `static_cast<int>(q)` — C++ float-to-int conversion truncates toward
zero. -/
def truncQ (q : ℚ) : Int := if 0 ≤ q then ⌊q⌋ else ⌈q⌉

/-- The loop shared by `BrightnessContrastAdjustment::process`
(ImageProcessing.cpp:20) and `GammaCorrection::process`
(ImageProcessing.cpp:47): reallocate `dst` to `src`'s dimensions
(`dst = Image(src.width(), src.height())` — the prior `dst` is discarded,
hence the unused parameter) and map `f` over every source pixel.  `src` is
taken by `const&` in the source and never written, which the pure embedding
mirrors by construction. -/
def pointwiseProcess (f : Nat → Nat) (src dst : Image) : Image :=
  mkImage src.width src.height (fun x y => f (src.atPix x y))

/-- Per-pixel map of `BrightnessContrastAdjustment`
(ImageProcessing.cpp:28): `min(255, max(0, int(srcPixel * alpha + beta)))`.
`alpha` is a `double`; it is modelled as `ℚ`, exact for the arithmetic the
claims below depend on. -/
def BrightnessContrastAdjustment.pixel (alpha : ℚ) (beta : Int) (p : Nat) : Nat :=
  clampByte (truncQ ((p : ℚ) * alpha + (beta : ℚ)))

/-- `BrightnessContrastAdjustment::process` (ImageProcessing.cpp:20). -/
def BrightnessContrastAdjustment.process (alpha : ℚ) (beta : Int)
    (src dst : Image) : Image :=
  pointwiseProcess (BrightnessContrastAdjustment.pixel alpha beta) src dst

/-- `GammaCorrection::process` (ImageProcessing.cpp:47).  Its per-pixel map
`min(255, int(255 * pow(srcPixel/255.0, gamma)))` computes a floating-point
`pow`, which has no exact shallow embedding; the map is abstracted as a
parameter `g`.  Every claim below about `GammaCorrection` (C6) is proved for
all `g`, hence in particular for the real per-pixel map. -/
def GammaCorrection.process (g : Nat → Nat) (src dst : Image) : Image :=
  pointwiseProcess g src dst

/-- One tap of the inner double loop of `Convolution::process`
(ImageProcessing.cpp:101-110): contributes
`src.at(srcX, srcY) * kernel[ky][kx]` when `(srcX, srcY)` is in bounds and
is omitted from the sum otherwise. -/
def convTap (kernel : List (List ℚ)) (kw kh : Nat) (src : Image)
    (x y kx ky : Nat) : ℚ :=
  if 0 ≤ (x : Int) + (kx : Int) - ((kw / 2 : Nat) : Int) ∧
      (x : Int) + (kx : Int) - ((kw / 2 : Nat) : Int) < (src.width : Int) ∧
      0 ≤ (y : Int) + (ky : Int) - ((kh / 2 : Nat) : Int) ∧
      (y : Int) + (ky : Int) - ((kh / 2 : Nat) : Int) < (src.height : Int)
  then (src.atPix ((x : Int) + (kx : Int) - ((kw / 2 : Nat) : Int)).toNat
        (((y : Int) + (ky : Int) - ((kh / 2 : Nat) : Int)).toNat) : ℚ)
      * ((kernel.getD ky []).getD kx 0)
  else 0

/-- The accumulated `sum` of `Convolution::process` for one destination
pixel (`ky` outer, `kx` inner).  `double` accumulation is modelled as exact
`ℚ` addition, which agrees with the source for the integer-valued weights
and samples the claims below use. -/
def convSum (kernel : List (List ℚ)) (kw kh : Nat) (src : Image)
    (x y : Nat) : ℚ :=
  (tabulate kh (fun ky =>
    (tabulate kw (fun kx => convTap kernel kw kh src x y kx ky)).sum)).sum

/-- `Convolution::process` (ImageProcessing.cpp:91): reallocate `dst` to
`src`'s dimensions, then for each pixel apply the scaling function to the
weighted sum and clamp to `[0, 255]`. -/
def Convolution.process (kernel : List (List ℚ)) (kw kh : Nat)
    (scale : ℚ → ℚ) (src dst : Image) : Image :=
  mkImage src.width src.height
    (fun x y => clampByte (truncQ (scale (convSum kernel kw kh src x y))))

/-- Claim C6: each filter's `process(src, dst)` reallocates `dst` to exactly
`src`'s width and height, discards any prior `dst` content (the result does
not depend on the incoming `dst`), and leaves `src` untouched (`src` is
passed by `const&`; the embedding is a pure function of `src`, so `src`
cannot change).  Stated for `BrightnessContrastAdjustment` (all parameters),
`GammaCorrection` (all per-pixel maps, hence the real one) and `Convolution`
(all kernels and scaling functions). -/
theorem claim_C6_process_contract (alpha : ℚ) (beta : Int) (g : Nat → Nat)
    (kernel : List (List ℚ)) (kw kh : Nat) (scale : ℚ → ℚ)
    (src d1 d2 : Image) :
    (BrightnessContrastAdjustment.process alpha beta src d1).width = src.width ∧
    (BrightnessContrastAdjustment.process alpha beta src d1).height = src.height ∧
    BrightnessContrastAdjustment.process alpha beta src d1
      = BrightnessContrastAdjustment.process alpha beta src d2 ∧
    (GammaCorrection.process g src d1).width = src.width ∧
    (GammaCorrection.process g src d1).height = src.height ∧
    GammaCorrection.process g src d1 = GammaCorrection.process g src d2 ∧
    (Convolution.process kernel kw kh scale src d1).width = src.width ∧
    (Convolution.process kernel kw kh scale src d1).height = src.height ∧
    Convolution.process kernel kw kh scale src d1
      = Convolution.process kernel kw kh scale src d2 :=
  ⟨rfl, rfl, rfl, rfl, rfl, rfl, rfl, rfl, rfl⟩

-- ### Drawing (Drawing.cpp)

/-- The guarded pixel write of `Drawing::drawLine` (Drawing.cpp:83-85):
`if (x1 >= 0 && x1 < width && y1 >= 0 && y1 < height) img.at(x1, y1) = v`.
(When `x1 ≥ 0` holds, the `int`-vs-`unsigned` comparison `x1 < width`
agrees with the mathematical one.) -/
def Drawing.plotChecked (img : Image) (x y : Int) (v : Nat) : Image :=
  if 0 ≤ x ∧ x < (img.width : Int) ∧ 0 ≤ y ∧ y < (img.height : Int) then
    img.setPix x.toNat y.toNat v
  else img

/-- The `while (true)` Bresenham loop of `Drawing::drawLine`
(Drawing.cpp:82-98), with an explicit fuel: `none` means the fuel ran out
before the loop hit its `break`.  Claim C9 proves that
`lineFuel` steps always suffice, so the C++ loop terminates. -/
def Drawing.drawLineLoop (x2 y2 dx dy sx sy : Int) (v : Nat) :
    Nat → Image → Int → Int → Int → Option Image
  | 0, _, _, _, _ => none
  | fuel + 1, img, x1, y1, err =>
    let img1 := Drawing.plotChecked img x1 y1 v
    if x1 = x2 ∧ y1 = y2 then some img1
    else
      let e2 := 2 * err
      let err1 := if e2 > -dy then err - dy else err
      let x1n := if e2 > -dy then x1 + sx else x1
      let err2 := if e2 < dx then err1 + dx else err1
      let y1n := if e2 < dx then y1 + sy else y1
      Drawing.drawLineLoop x2 y2 dx dy sx sy v fuel img1 x1n y1n err2

/-- Fuel bound for the Bresenham loop: `|dx| + |dy| + 1` iterations. -/
def Drawing.lineFuel (p1 p2 : Int × Int) : Nat :=
  (|p2.1 - p1.1| + |p2.2 - p1.2|).toNat + 1

/-- `Drawing::drawLine` (Drawing.cpp:70) as the fueled loop, returning
`none` if the fuel were to run out (C9 shows it never does):
`dx = |x2-x1|`, `dy = |y2-y1|`, `sx/sy` step signs, `err = dx - dy`. -/
def Drawing.drawLineRun (img : Image) (p1 p2 : Int × Int) (v : Nat) :
    Option Image :=
  let dx := |p2.1 - p1.1|
  let dy := |p2.2 - p1.2|
  let sx : Int := if p1.1 < p2.1 then 1 else -1
  let sy : Int := if p1.2 < p2.2 then 1 else -1
  Drawing.drawLineLoop p2.1 p2.2 dx dy sx sy v (Drawing.lineFuel p1 p2)
    img p1.1 p1.2 (dx - dy)

/-- `Drawing::drawLine`: the image after the loop finishes. -/
def Drawing.drawLine (img : Image) (p1 p2 : Int × Int) (v : Nat) : Image :=
  (Drawing.drawLineRun img p1 p2 v).getD img

/-- The eight guarded `img.at(...) = value` calls in the body of
`Drawing::drawCircle`'s loop (Drawing.cpp:24-47), in source order, recorded
as the argument pairs passed to `Image::at`.  Since `Image::at(x, y)` writes
`m_data[y][x]`, a recorded pair `(c, r)` writes column `c` of row `r`.  Each
guard checks `center.x ± dx` against `[0, width)` and `center.y ± dy`
against `[0, height)`, but the write is `img.at(center.y ± dy,
center.x ± dx)` — the arguments in the source are in the opposite order to
`at`'s `(x, y)` parameters. -/
def Drawing.octantWrites (w h : Nat) (cx cy x y : Int) : List (Int × Int) :=
  (if 0 ≤ cx + x ∧ cx + x < (w : Int) ∧ 0 ≤ cy + y ∧ cy + y < (h : Int) then
    [(cy + y, cx + x)] else []) ++
  (if 0 ≤ cx + y ∧ cx + y < (w : Int) ∧ 0 ≤ cy + x ∧ cy + x < (h : Int) then
    [(cy + x, cx + y)] else []) ++
  (if 0 ≤ cx - x ∧ cx - x < (w : Int) ∧ 0 ≤ cy + y ∧ cy + y < (h : Int) then
    [(cy + y, cx - x)] else []) ++
  (if 0 ≤ cx - y ∧ cx - y < (w : Int) ∧ 0 ≤ cy + x ∧ cy + x < (h : Int) then
    [(cy + x, cx - y)] else []) ++
  (if 0 ≤ cx + x ∧ cx + x < (w : Int) ∧ 0 ≤ cy - y ∧ cy - y < (h : Int) then
    [(cy - y, cx + x)] else []) ++
  (if 0 ≤ cx + y ∧ cx + y < (w : Int) ∧ 0 ≤ cy - x ∧ cy - x < (h : Int) then
    [(cy - x, cx + y)] else []) ++
  (if 0 ≤ cx - x ∧ cx - x < (w : Int) ∧ 0 ≤ cy - y ∧ cy - y < (h : Int) then
    [(cy - y, cx - x)] else []) ++
  (if 0 ≤ cx - y ∧ cx - y < (w : Int) ∧ 0 ≤ cy - x ∧ cy - x < (h : Int) then
    [(cy - x, cx - y)] else [])

/-- The `while (x <= y)` midpoint loop of `Drawing::drawCircle`
(Drawing.cpp:22-56), collecting every argument pair passed to `Image::at`.
Fueled structurally: `x` starts at 0 and increases by 1 each iteration
while `y` never increases from `radius`, so `(radius + 2).toNat` iterations
always cover the whole loop (for `radius < 0` the guard fails at once and
both the loop and the model produce nothing). -/
def Drawing.drawCircleAux (w h : Nat) (cx cy : Int) :
    Nat → Int → Int → Int → List (Int × Int)
  | 0, _, _, _ => []
  | fuel + 1, x, y, d =>
    if x ≤ y then
      Drawing.octantWrites w h cx cy x y ++
        (if d < 0 then Drawing.drawCircleAux w h cx cy fuel (x + 1) y (d + 4 * x + 6)
         else Drawing.drawCircleAux w h cx cy fuel (x + 1) (y - 1) (d + 4 * (x - y) + 10))
    else []

/-- All `Image::at` argument pairs produced by
`Drawing::drawCircle(img, center, radius, value)` on a `w × h` image:
`x = 0`, `y = radius`, `d = 3 - 2*radius`. -/
def Drawing.drawCircleWrites (w h : Nat) (cx cy radius : Int) :
    List (Int × Int) :=
  Drawing.drawCircleAux w h cx cy (radius + 2).toNat 0 radius (3 - 2 * radius)

/-- A pair `(c, r)` of arguments to `Image::at` touches memory in bounds on
a `w × h` image iff the column `c` is in `[0, w)` and the row `r` is in
`[0, h)`. -/
def Drawing.writeInBounds (w h : Nat) (p : Int × Int) : Prop :=
  0 ≤ p.1 ∧ p.1 < (w : Int) ∧ 0 ≤ p.2 ∧ p.2 < (h : Int)

instance (w h : Nat) (p : Int × Int) : Decidable (Drawing.writeInBounds w h p) := by
  unfold Drawing.writeInBounds; infer_instance

/-- Claim C1 fails on the code: on a 3×1 image with center `(2, 0)` and
radius `0`, the first octant's guard passes (`cx + 0 = 2 ∈ [0, 3)` and
`cy + 0 = 0 ∈ [0, 1)`), but the write is `img.at(cy + 0, cx + 0) =
img.at(0, 2)`, i.e. `m_data[2][0]` — row 2 of a 1-row image, an
out-of-bounds write.  The arguments of `at` are swapped relative to the
bounds check (`Image::at(x, y)` is `m_data[y][x]`), contradicting the
function's own documentation "Checks bounds before drawing each point". -/
theorem claim_C1_drawCircle_oob_write :
    ∃ p ∈ Drawing.drawCircleWrites 3 1 2 0 0, ¬ Drawing.writeInBounds 3 1 p := by
  decide

/-- Claim C8: for a point `(px, py)` inside the bounds of a well-formed
image, `drawLine(img, p, p, value)` sets exactly the pixel at `p` to
`value`, preserves the dimensions, and changes no other pixel. -/
theorem claim_C8_drawLine_degenerate (img : Image)
    (hl : img.rows.length = img.height)
    (hr : ∀ r ∈ img.rows, r.length = img.width)
    (px py : Nat) (hx : px < img.width) (hy : py < img.height) (v : Nat) :
    (Drawing.drawLine img ((px : Int), (py : Int)) ((px : Int), (py : Int)) v).atPix px py = v ∧
    (Drawing.drawLine img ((px : Int), (py : Int)) ((px : Int), (py : Int)) v).width = img.width ∧
    (Drawing.drawLine img ((px : Int), (py : Int)) ((px : Int), (py : Int)) v).height = img.height ∧
    ∀ qx qy : Nat, qx ≠ px ∨ qy ≠ py →
      (Drawing.drawLine img ((px : Int), (py : Int)) ((px : Int), (py : Int)) v).atPix qx qy
        = img.atPix qx qy := by
  have hfuel : Drawing.lineFuel ((px : Int), (py : Int)) ((px : Int), (py : Int)) = 1 := by
    unfold Drawing.lineFuel
    simp
  have hrun : Drawing.drawLineRun img ((px : Int), (py : Int)) ((px : Int), (py : Int)) v
      = some (Drawing.plotChecked img (px : Int) (py : Int) v) := by
    unfold Drawing.drawLineRun
    rw [hfuel]
    simp [Drawing.drawLineLoop]
  have hplot : Drawing.plotChecked img (px : Int) (py : Int) v = img.setPix px py v := by
    unfold Drawing.plotChecked
    rw [if_pos ⟨Int.natCast_nonneg px, by exact_mod_cast hx,
      Int.natCast_nonneg py, by exact_mod_cast hy⟩]
    simp
  have himg : Drawing.drawLine img ((px : Int), (py : Int)) ((px : Int), (py : Int)) v
      = img.setPix px py v := by
    unfold Drawing.drawLine
    rw [hrun, hplot]
    rfl
  rw [himg]
  exact ⟨atPix_setPix_self v hl hr hx hy, rfl, rfl,
    fun qx qy hne => atPix_setPix_ne v hne⟩

/-- Witness for C8: `drawLine(img, (2,2), (2,2), 200)` on a constant 4×4
image sets pixel (2,2) to 200 and leaves pixel (1,2) unchanged. -/
theorem claim_C8_drawLine_degenerate_witness :
    (Drawing.drawLine (constImage 4 4 7) ((2 : Int), (2 : Int)) ((2 : Int), (2 : Int)) 200).atPix 2 2 = 200 ∧
    (Drawing.drawLine (constImage 4 4 7) ((2 : Int), (2 : Int)) ((2 : Int), (2 : Int)) 200).atPix 1 2
      = (constImage 4 4 7).atPix 1 2 :=
  ⟨((claim_C8_drawLine_degenerate (constImage 4 4 7) (by decide)
      (by decide) 2 2 (by decide) (by decide) 200)).1,
    ((claim_C8_drawLine_degenerate (constImage 4 4 7) (by decide)
      (by decide) 2 2 (by decide) (by decide) 200)).2.2.2 1 2 (Or.inl (by decide))⟩

/-- Invariant-based termination of the Bresenham loop: starting from
`(x0 + a·sx, y0 + b·sy)` with `a` of the `dx` x-steps and `b` of the `dy`
y-steps already taken and the error accumulator at its loop value
`dx - dy - a·dy + b·dx`, the loop finishes (`isSome`) given fuel exceeding
the remaining steps `(dx - a) + (dy - b)`. -/
theorem drawLineLoop_isSome (x0 y0 x2 y2 : Int) (v : Nat)
    (dx dy sx sy : Int)
    (hdx : dx = |x2 - x0|) (hdy : dy = |y2 - y0|)
    (hsx : sx = if x0 < x2 then 1 else -1)
    (hsy : sy = if y0 < y2 then 1 else -1) :
    ∀ (fuel : Nat) (a b : Int) (img : Image),
      0 ≤ a → a ≤ dx → 0 ≤ b → b ≤ dy →
      (dx - a) + (dy - b) < (fuel : Int) →
      (Drawing.drawLineLoop x2 y2 dx dy sx sy v fuel img
        (x0 + a * sx) (y0 + b * sy) (dx - dy - a * dy + b * dx)).isSome = true := by
  have hdx0 : 0 ≤ dx := hdx ▸ abs_nonneg _
  have hdy0 : 0 ≤ dy := hdy ▸ abs_nonneg _
  have hx2 : x0 + dx * sx = x2 := by
    rcases lt_or_le x0 x2 with h | h
    · rw [hdx, hsx, if_pos h, abs_of_nonneg (by omega : (0 : Int) ≤ x2 - x0)]
      omega
    · rw [hdx, hsx, if_neg (not_lt.mpr h), abs_of_nonpos (by omega : x2 - x0 ≤ 0)]
      omega
  have hy2 : y0 + dy * sy = y2 := by
    rcases lt_or_le y0 y2 with h | h
    · rw [hdy, hsy, if_pos h, abs_of_nonneg (by omega : (0 : Int) ≤ y2 - y0)]
      omega
    · rw [hdy, hsy, if_neg (not_lt.mpr h), abs_of_nonpos (by omega : y2 - y0 ≤ 0)]
      omega
  have hsx1 : sx = 1 ∨ sx = -1 := by
    rw [hsx]; split <;> simp
  have hsy1 : sy = 1 ∨ sy = -1 := by
    rw [hsy]; split <;> simp
  have hxiff : ∀ a : Int, x0 + a * sx = x2 ↔ a = dx := by
    intro a
    rw [← hx2]
    rcases hsx1 with rfl | rfl <;> omega
  have hyiff : ∀ b : Int, y0 + b * sy = y2 ↔ b = dy := by
    intro b
    rw [← hy2]
    rcases hsy1 with rfl | rfl <;> omega
  intro fuel
  induction fuel with
  | zero =>
    intro a b img ha0 hadx hb0 hbdy hm
    exfalso
    push_cast at hm
    omega
  | succ n ih =>
    intro a b img ha0 hadx hb0 hbdy hm
    simp only [Drawing.drawLineLoop]
    by_cases hend : x0 + a * sx = x2 ∧ y0 + b * sy = y2
    · rw [if_pos hend]
      rfl
    · rw [if_neg hend]
      have hnotboth : ¬(a = dx ∧ b = dy) := by
        intro ⟨h1, h2⟩
        exact hend ⟨(hxiff a).mpr h1, (hyiff b).mpr h2⟩
      push_cast at hm
      by_cases hX : 2 * (dx - dy - a * dy + b * dx) > -dy <;>
        by_cases hY : 2 * (dx - dy - a * dy + b * dx) < dx
      · -- both an x-step and a y-step
        have hadx' : a < dx := by
          rcases eq_or_lt_of_le hadx with rfl | h
          · exfalso
            have hb : b < dy := lt_of_le_of_ne hbdy (fun hbe => hnotboth ⟨rfl, hbe⟩)
            have hprod : a * (b + 1) ≤ a * dy :=
              mul_le_mul_of_nonneg_left (by omega) ha0
            nlinarith [hX]
          · exact h
        have hbdy' : b < dy := by
          rcases eq_or_lt_of_le hbdy with rfl | h
          · exfalso
            have ha : a < dx := lt_of_le_of_ne hadx (fun hae => hnotboth ⟨hae, rfl⟩)
            have hprod : (0 : Int) ≤ b * (dx - a - 1) :=
              mul_nonneg hb0 (by omega)
            nlinarith [hY]
          · exact h
        rw [if_pos hX, if_pos hX, if_pos hY, if_pos hY]
        have e1 : x0 + a * sx + sx = x0 + (a + 1) * sx := by ring
        have e2 : y0 + b * sy + sy = y0 + (b + 1) * sy := by ring
        have e3 : dx - dy - a * dy + b * dx - dy + dx
            = dx - dy - (a + 1) * dy + (b + 1) * dx := by ring
        rw [e1, e2, e3]
        exact ih (a + 1) (b + 1) _ (by omega) (by omega) (by omega) (by omega)
          (by omega)
      · -- x-step only
        have hadx' : a < dx := by
          rcases eq_or_lt_of_le hadx with rfl | h
          · exfalso
            have hb : b < dy := lt_of_le_of_ne hbdy (fun hbe => hnotboth ⟨rfl, hbe⟩)
            have hprod : a * (b + 1) ≤ a * dy :=
              mul_le_mul_of_nonneg_left (by omega) ha0
            nlinarith [hX]
          · exact h
        rw [if_pos hX, if_pos hX, if_neg hY, if_neg hY]
        have e1 : x0 + a * sx + sx = x0 + (a + 1) * sx := by ring
        have e3 : dx - dy - a * dy + b * dx - dy
            = dx - dy - (a + 1) * dy + b * dx := by ring
        rw [e1, e3]
        exact ih (a + 1) b _ (by omega) (by omega) (by omega) (by omega)
          (by omega)
      · -- y-step only
        have hbdy' : b < dy := by
          rcases eq_or_lt_of_le hbdy with rfl | h
          · exfalso
            have ha : a < dx := by
              rcases eq_or_lt_of_le hadx with rfl | h'
              · exact absurd ⟨rfl, rfl⟩ hnotboth
              · exact h'
            have hprod : (0 : Int) ≤ b * (dx - a - 1) :=
              mul_nonneg hb0 (by omega)
            nlinarith [hY]
          · exact h
        rw [if_neg hX, if_neg hX, if_pos hY, if_pos hY]
        have e2 : y0 + b * sy + sy = y0 + (b + 1) * sy := by ring
        have e3 : dx - dy - a * dy + b * dx + dx
            = dx - dy - a * dy + (b + 1) * dx := by ring
        rw [e2, e3]
        exact ih a (b + 1) _ (by omega) (by omega) (by omega) (by omega)
          (by omega)
      · -- neither step would fire: only possible when dx = dy = 0,
        -- i.e. at the endpoint, contradicting the loop guard
        exfalso
        have h1 : dx + dy ≤ 0 := by linarith
        have hdxz : dx = 0 := by omega
        have hdyz : dy = 0 := by omega
        exact hnotboth ⟨by omega, by omega⟩

/-- Claim C9: for every image, every pair of endpoints (any integer
coordinates) and every value, the `while (true)` Bresenham loop of
`drawLine` reaches `p2` and breaks within `lineFuel p1 p2 = |dx| + |dy| + 1`
iterations — the fueled run never exhausts its fuel. -/
theorem claim_C9_drawLine_terminates (img : Image) (p1 p2 : Int × Int) (v : Nat) :
    (Drawing.drawLineRun img p1 p2 v).isSome = true := by
  obtain ⟨x0, y0⟩ := p1
  obtain ⟨x2, y2⟩ := p2
  have h := drawLineLoop_isSome x0 y0 x2 y2 v (|x2 - x0|) (|y2 - y0|)
    (if x0 < x2 then 1 else -1) (if y0 < y2 then 1 else -1)
    rfl rfl rfl rfl ((|x2 - x0| + |y2 - y0|).toNat + 1) 0 0 img
    le_rfl (abs_nonneg _) le_rfl (abs_nonneg _) ?_
  · unfold Drawing.drawLineRun Drawing.lineFuel
    simpa using h
  · push_cast
    rw [Int.toNat_of_nonneg (add_nonneg (abs_nonneg _) (abs_nonneg _))]
    omega

/-- Every pixel of a well-formed image is an `unsigned char` value. -/
theorem atPix_lt_256_of_wf {img : Image} (hwf : img.wf) {x y : Nat}
    (hx : x < img.width) (hy : y < img.height) : img.atPix x y < 256 := by
  obtain ⟨hl, hr⟩ := hwf
  have hy' : y < img.rows.length := by omega
  have hmem : img.rows.getD y [] ∈ img.rows := by
    rw [List.getD_eq_getElem _ _ hy']
    exact List.getElem_mem hy'
  obtain ⟨hlen, hb⟩ := hr _ hmem
  have hx' : x < (img.rows.getD y []).length := by omega
  have hmem2 : (img.rows.getD y []).getD x 0 ∈ img.rows.getD y [] := by
    rw [List.getD_eq_getElem _ _ hx']
    exact List.getElem_mem hx'
  exact hb _ hmem2

/-- The 3×3 identity kernel `[[0,0,0],[0,1,0],[0,0,0]]` of claim C3. -/
def identityKernel3 : List (List ℚ) := [[0, 0, 0], [0, 1, 0], [0, 0, 0]]

/-- A convolution tap whose kernel weight is 0 contributes 0 whether or not
its sample is in bounds. -/
theorem convTap_zero_weight (kernel : List (List ℚ)) (kw kh : Nat)
    (src : Image) (x y kx ky : Nat)
    (hzero : (kernel.getD ky []).getD kx 0 = 0) :
    convTap kernel kw kh src x y kx ky = 0 := by
  unfold convTap
  split
  · rw [hzero, mul_zero]
  · rfl

/-- The center tap of the 3×3 identity kernel samples exactly the source
pixel (the sample `(x + 1 - 1, y + 1 - 1)` is always in bounds). -/
theorem convTap_center (src : Image) (x y : Nat)
    (hx : x < src.width) (hy : y < src.height) :
    convTap identityKernel3 3 3 src x y 1 1 = (src.atPix x y : ℚ) := by
  have h32 : ((3 / 2 : Nat) : Int) = 1 := by norm_num
  unfold convTap
  simp only [h32, Nat.cast_one]
  have hxx : (x : Int) + 1 - 1 = (x : Int) := by ring
  have hyy : (y : Int) + 1 - 1 = (y : Int) := by ring
  rw [hxx, hyy, if_pos ⟨Int.natCast_nonneg x, by exact_mod_cast hx,
    Int.natCast_nonneg y, by exact_mod_cast hy⟩]
  simp [identityKernel3]

/-- For the identity kernel the nine-tap weighted sum collapses to the
source pixel. -/
theorem convSum_identity (src : Image) (x y : Nat)
    (hx : x < src.width) (hy : y < src.height) :
    convSum identityKernel3 3 3 src x y = (src.atPix x y : ℚ) := by
  have hr3 : List.range 3 = [0, 1, 2] := rfl
  unfold convSum
  simp only [tabulate, hr3, List.map_cons, List.map_nil, List.sum_cons, List.sum_nil]
  rw [convTap_zero_weight identityKernel3 3 3 src x y 0 0 rfl,
    convTap_zero_weight identityKernel3 3 3 src x y 1 0 rfl,
    convTap_zero_weight identityKernel3 3 3 src x y 2 0 rfl,
    convTap_zero_weight identityKernel3 3 3 src x y 0 1 rfl,
    convTap_center src x y hx hy,
    convTap_zero_weight identityKernel3 3 3 src x y 2 1 rfl,
    convTap_zero_weight identityKernel3 3 3 src x y 0 2 rfl,
    convTap_zero_weight identityKernel3 3 3 src x y 1 2 rfl,
    convTap_zero_weight identityKernel3 3 3 src x y 2 2 rfl]
  ring

/-- Claim C3: convolving any well-formed image with the 3×3 kernel
`[[0,0,0],[0,1,0],[0,0,0]]` and the identity scaling function reproduces
the source image exactly, boundary pixels included. -/
theorem claim_C3_convolution_identity (src dst : Image) (hwf : src.wf) :
    Convolution.process identityKernel3 3 3 (fun q => q) src dst = src := by
  obtain ⟨hl, hrw⟩ := hwf
  have hpix : ∀ x y, x < src.width → y < src.height →
      clampByte (truncQ (convSum identityKernel3 3 3 src x y)) = src.atPix x y := by
    intro x y hx hy
    rw [convSum_identity src x y hx hy]
    have hle : src.atPix x y < 256 := atPix_lt_256_of_wf ⟨hl, hrw⟩ hx hy
    unfold truncQ
    rw [if_pos (by exact_mod_cast Nat.zero_le _), Int.floor_natCast]
    unfold clampByte
    rw [max_eq_right (Int.natCast_nonneg _),
      min_eq_right (by exact_mod_cast Nat.le_of_lt_succ hle)]
    exact Int.toNat_natCast _
  show mkImage src.width src.height
      (fun x y => clampByte (truncQ (convSum identityKernel3 3 3 src x y))) = src
  rw [mkImage_congr hpix]
  exact Image.eq_mkImage_of_wf hl (fun r hr => (hrw r hr).1)

/-- Witness for C3: the identity convolution fixes the concrete 2×2 image
`[[5, 17], [200, 255]]`. -/
theorem claim_C3_convolution_identity_witness :
    (⟨2, 2, [[5, 17], [200, 255]]⟩ : Image).wf ∧
    Convolution.process identityKernel3 3 3 (fun q => q)
      ⟨2, 2, [[5, 17], [200, 255]]⟩ Image.empty = ⟨2, 2, [[5, 17], [200, 255]]⟩ :=
  ⟨by decide, claim_C3_convolution_identity _ _ (by decide)⟩

-- ### PGM byte-stream I/O (Image::save / Image::load)

/-- Whitespace bytes skipped by `operator>>` (C locale `isspace`). -/
def wsB (b : Nat) : Bool :=
  b == 32 || b == 9 || b == 10 || b == 11 || b == 12 || b == 13

/-- ASCII decimal digit bytes. -/
def digB (b : Nat) : Bool := 48 ≤ b && b ≤ 57

/-- Decimal ASCII digits of `n`, most significant first, as written by
`operator<<` on an unsigned integer.  Structural recursion on a fuel that
`natToDigitBytes` instantiates with `n + 1`, which always suffices because
`n / 10 < n` for `n ≥ 10`. -/
def natToDigitsAux : Nat → Nat → List Nat
  | 0, _ => []
  | fuel + 1, n =>
    if n < 10 then [n + 48]
    else natToDigitsAux fuel (n / 10) ++ [n % 10 + 48]

/-- The decimal ASCII encoding of `n` (`file << n`). -/
def natToDigitBytes (n : Nat) : List Nat := natToDigitsAux (n + 1) n

/-- The digit-accumulation loop of `operator>>`: `acc = 10*acc + digit`. -/
def decDigits (acc : Nat) (l : List Nat) : Nat :=
  l.foldl (fun a d => 10 * a + (d - 48)) acc

/-- `file >> (std::string&)`: skip whitespace, then take the maximal
non-whitespace run (the extracted token and the remaining stream). -/
def readToken (s : List Nat) : List Nat × List Nat :=
  ((s.dropWhile wsB).takeWhile (fun b => !wsB b),
   (s.dropWhile wsB).dropWhile (fun b => !wsB b))

/-- `file >> (unsigned int&)` (and `>> (int&)`) on a well-formed stream:
skip whitespace, read the maximal digit run, decode it. -/
def readNat (s : List Nat) : Nat × List Nat :=
  (decDigits 0 ((s.dropWhile wsB).takeWhile digB),
   (s.dropWhile wsB).dropWhile digB)

/-- The pixel-reading double loop of `Image::load` (Image.cpp:116-122):
`h` rows of `w` raw bytes each (`file.read(..., 1)` per sample). -/
def readRows (w : Nat) : Nat → List Nat → List (List Nat)
  | 0, _ => []
  | h + 1, s => s.take w :: readRows w h (s.drop w)

/-- `Image::save` (Image.cpp:136) as the byte stream it writes: the header
`"P5\n" << w << " " << h << "\n255\n"` followed by the `w*h` samples
written row-major by the double loop over `m_data[i][j]`. -/
def Image.save (img : Image) : List Nat :=
  [80, 53, 10] ++ natToDigitBytes img.width ++ [32] ++
    natToDigitBytes img.height ++ [10, 50, 53, 53, 10] ++
    (tabulate img.height (fun i => tabulate img.width (fun j => img.atPix j i))).flatten

/-- `Image::load` (Image.cpp:94) on a byte stream: extract a token and fail
(`none`, the C++ `return false`) unless it is `"P5"` (`[80, 53]`); then read
`m_width`, `m_height` and `maxVal` (parsed but not validated), consume one
separator byte (`file.get()`), and read `m_height` rows of `m_width` raw
bytes.  Failure to open the file, and the indeterminate trailing pixels of a
short stream, are outside the model. -/
def Image.load (s : List Nat) : Option Image :=
  if (readToken s).1 = [80, 53] then
    some ⟨(readNat (readToken s).2).1,
          (readNat (readNat (readToken s).2).2).1,
          readRows (readNat (readToken s).2).1
            (readNat (readNat (readToken s).2).2).1
            ((readNat (readNat (readNat (readToken s).2).2).2).2.drop 1)⟩
  else none

theorem natToDigitsAux_spec :
    ∀ (fuel n : Nat), n < fuel →
      (∀ d ∈ natToDigitsAux fuel n, 48 ≤ d ∧ d ≤ 57) ∧
      natToDigitsAux fuel n ≠ [] ∧
      ∀ acc, decDigits acc (natToDigitsAux fuel n)
        = acc * 10 ^ (natToDigitsAux fuel n).length + n := by
  intro fuel
  induction fuel with
  | zero => intro n hn; omega
  | succ fuel ih =>
    intro n hn
    by_cases h10 : n < 10
    · rw [show natToDigitsAux (fuel + 1) n = [n + 48] from by
        simp [natToDigitsAux, h10]]
      refine ⟨?_, by simp, ?_⟩
      · intro d hd
        simp at hd
        omega
      · intro acc
        simp [decDigits]
        omega
    · have hdiv : n / 10 < n := Nat.div_lt_self (by omega) (by omega)
      have hfuel : n / 10 < fuel := by omega
      obtain ⟨hmem, hne, hdec⟩ := ih (n / 10) hfuel
      rw [show natToDigitsAux (fuel + 1) n
          = natToDigitsAux fuel (n / 10) ++ [n % 10 + 48] from by
        simp [natToDigitsAux, h10]]
      refine ⟨?_, by simp, ?_⟩
      · intro d hd
        rw [List.mem_append] at hd
        rcases hd with hd | hd
        · exact hmem d hd
        · simp at hd
          have : n % 10 < 10 := Nat.mod_lt n (by omega)
          omega
      · intro acc
        unfold decDigits
        rw [List.foldl_append]
        have hfold : List.foldl (fun a d => 10 * a + (d - 48)) acc
            (natToDigitsAux fuel (n / 10))
            = acc * 10 ^ (natToDigitsAux fuel (n / 10)).length + n / 10 :=
          hdec acc
        simp only [List.foldl_cons, List.foldl_nil]
        rw [hfold, List.length_append, List.length_cons, List.length_nil]
        have hdm : 10 * (n / 10) + n % 10 = n := Nat.div_add_mod n 10
        have h48 : n % 10 + 48 - 48 = n % 10 := by omega
        rw [h48]
        calc 10 * (acc * 10 ^ (natToDigitsAux fuel (n / 10)).length + n / 10) + n % 10
            = acc * 10 ^ ((natToDigitsAux fuel (n / 10)).length + (0 + 1))
              + (10 * (n / 10) + n % 10) := by ring
          _ = acc * 10 ^ ((natToDigitsAux fuel (n / 10)).length + (0 + 1)) + n := by
              rw [hdm]

theorem natToDigitBytes_mem {n d : Nat} (hd : d ∈ natToDigitBytes n) :
    48 ≤ d ∧ d ≤ 57 :=
  (natToDigitsAux_spec (n + 1) n (by omega)).1 d hd

theorem natToDigitBytes_ne_nil (n : Nat) : natToDigitBytes n ≠ [] :=
  (natToDigitsAux_spec (n + 1) n (by omega)).2.1

theorem decDigits_natToDigitBytes (n : Nat) :
    decDigits 0 (natToDigitBytes n) = n := by
  have h := (natToDigitsAux_spec (n + 1) n (by omega)).2.2 0
  simpa using h

theorem dropWhile_append_all {p : Nat → Bool} {l t : List Nat}
    (h : ∀ a ∈ l, p a = true) : (l ++ t).dropWhile p = t.dropWhile p := by
  induction l with
  | nil => rfl
  | cons a l ih =>
    rw [List.cons_append, List.dropWhile_cons, if_pos (h a (List.mem_cons_self _ _))]
    exact ih (fun a ha => h a (List.mem_cons_of_mem _ ha))

theorem takeWhile_append_sat {p : Nat → Bool} {l : List Nat} {b : Nat}
    {t : List Nat} (hall : ∀ a ∈ l, p a = true) (hb : p b = false) :
    (l ++ b :: t).takeWhile p = l ∧ (l ++ b :: t).dropWhile p = b :: t := by
  induction l with
  | nil =>
    constructor
    · simp [List.takeWhile_cons, hb]
    · simp [List.dropWhile_cons, hb]
  | cons a l ih =>
    obtain ⟨ht, hd⟩ := ih (fun a ha => hall a (List.mem_cons_of_mem _ ha))
    constructor
    · rw [List.cons_append, List.takeWhile_cons,
        hall a (List.mem_cons_self _ _)]
      simp [ht]
    · rw [List.cons_append, List.dropWhile_cons,
        if_pos (hall a (List.mem_cons_self _ _))]
      exact hd

/-- `operator>>` on an unsigned, run on a stream of whitespace, then the
decimal encoding of `n`, then a non-digit byte: yields `n` and stops exactly
before that byte. -/
theorem readNat_exact (pre : List Nat) (hpre : ∀ a ∈ pre, wsB a = true)
    (n b : Nat) (t : List Nat) (hb : digB b = false) :
    readNat (pre ++ (natToDigitBytes n ++ b :: t)) = (n, b :: t) := by
  have hdigits_digB : ∀ a ∈ natToDigitBytes n, digB a = true := by
    intro a ha
    obtain ⟨h1, h2⟩ := natToDigitBytes_mem ha
    simp [digB]
    omega
  have hdrop : (pre ++ (natToDigitBytes n ++ b :: t)).dropWhile wsB
      = natToDigitBytes n ++ b :: t := by
    rw [dropWhile_append_all hpre]
    obtain ⟨d, ds, hds⟩ := List.exists_cons_of_ne_nil (natToDigitBytes_ne_nil n)
    rw [hds, List.cons_append, List.dropWhile_cons]
    have hd48 : 48 ≤ d ∧ d ≤ 57 := natToDigitBytes_mem (by rw [hds]; exact (List.mem_cons_self _ _))
    rw [if_neg (by simp [wsB]; omega)]
  obtain ⟨htake, hdropD⟩ := takeWhile_append_sat hdigits_digB hb
  unfold readNat
  rw [hdrop, htake, hdropD, decDigits_natToDigitBytes]

/-- Reading back `h` rows of `w` bytes from the concatenation of `h` rows
of length `w` recovers exactly those rows. -/
theorem readRows_flatten :
    ∀ (rs : List (List Nat)) (w : Nat), (∀ r ∈ rs, r.length = w) →
      readRows w rs.length rs.flatten = rs := by
  intro rs
  induction rs with
  | nil => intro w _; rfl
  | cons r rs ih =>
    intro w hlen
    have hr : r.length = w := hlen r (List.mem_cons_self _ _)
    rw [List.length_cons, List.flatten_cons]
    show (r ++ rs.flatten).take w :: readRows w rs.length ((r ++ rs.flatten).drop w)
        = r :: rs
    rw [← hr, List.take_left, List.drop_left]
    rw [hr, ih w (fun a ha => hlen a (List.mem_cons_of_mem _ ha))]

/-- `file >> magic` on the saved stream extracts exactly the token `"P5"`. -/
theorem readToken_P5 (t : List Nat) :
    readToken (80 :: 53 :: 10 :: t) = ([80, 53], 10 :: t) := by
  unfold readToken
  simp [List.dropWhile_cons, List.takeWhile_cons, wsB]

/-- `readNat_exact` specialised to a single leading whitespace byte. -/
theorem readNat_ws_cons (c : Nat) (hc : wsB c = true) (n b : Nat)
    (t : List Nat) (hb : digB b = false) :
    readNat (c :: (natToDigitBytes n ++ b :: t)) = (n, b :: t) := by
  have h := readNat_exact [c]
    (by intro a ha; simp at ha; subst ha; exact hc) n b t hb
  simpa using h

/-- Claim C2: saving a well-formed image of dimensions ≥1×1 to the P5 byte
stream and loading that stream back yields an image with the same
dimensions and the same value at every pixel (the loaded image is equal to
the original). -/
theorem claim_C2_save_load_roundtrip (img : Image) (hwf : img.wf)
    (hw : 1 ≤ img.width) (hh : 1 ≤ img.height) :
    Image.load (Image.save img) = some img := by
  obtain ⟨hl, hrw⟩ := hwf
  have h255 : natToDigitBytes 255 = [50, 53, 53] := rfl
  have hshape : Image.save img
      = 80 :: 53 :: 10 :: (natToDigitBytes img.width ++
          32 :: (natToDigitBytes img.height ++
            10 :: 50 :: 53 :: 53 :: 10 ::
              (tabulate img.height
                (fun i => tabulate img.width (fun j => img.atPix j i))).flatten)) := by
    unfold Image.save
    simp [List.append_assoc]
  have h2 : readNat (10 :: (natToDigitBytes img.width ++
      32 :: (natToDigitBytes img.height ++
        10 :: 50 :: 53 :: 53 :: 10 ::
          (tabulate img.height
            (fun i => tabulate img.width (fun j => img.atPix j i))).flatten)))
      = (img.width,
          32 :: (natToDigitBytes img.height ++
            10 :: 50 :: 53 :: 53 :: 10 ::
              (tabulate img.height
                (fun i => tabulate img.width (fun j => img.atPix j i))).flatten)) :=
    readNat_ws_cons 10 rfl img.width 32 _ rfl
  have h3 : readNat (32 :: (natToDigitBytes img.height ++
      10 :: 50 :: 53 :: 53 :: 10 ::
        (tabulate img.height
          (fun i => tabulate img.width (fun j => img.atPix j i))).flatten))
      = (img.height,
          10 :: 50 :: 53 :: 53 :: 10 ::
            (tabulate img.height
              (fun i => tabulate img.width (fun j => img.atPix j i))).flatten) :=
    readNat_ws_cons 32 rfl img.height 10 _ rfl
  have h4 : readNat (10 :: 50 :: 53 :: 53 :: 10 ::
      (tabulate img.height
        (fun i => tabulate img.width (fun j => img.atPix j i))).flatten)
      = (255, 10 :: (tabulate img.height
          (fun i => tabulate img.width (fun j => img.atPix j i))).flatten) := by
    have h := readNat_ws_cons 10 rfl 255 10
      (tabulate img.height
        (fun i => tabulate img.width (fun j => img.atPix j i))).flatten rfl
    rw [h255] at h
    simpa using h
  have h6 : readRows img.width img.height
      (tabulate img.height
        (fun i => tabulate img.width (fun j => img.atPix j i))).flatten
      = tabulate img.height
          (fun i => tabulate img.width (fun j => img.atPix j i)) := by
    have hlen : (tabulate img.height
        (fun i => tabulate img.width (fun j => img.atPix j i))).length
        = img.height := tabulate_length _ _
    have hrows : ∀ r ∈ tabulate img.height
        (fun i => tabulate img.width (fun j => img.atPix j i)),
        r.length = img.width := by
      intro r hr
      unfold tabulate at hr
      obtain ⟨i, hi, rfl⟩ := List.mem_map.mp hr
      exact tabulate_length _ _
    have h := readRows_flatten
      (tabulate img.height (fun i => tabulate img.width (fun j => img.atPix j i)))
      img.width hrows
    rw [hlen] at h
    exact h
  have himg : (⟨img.width, img.height,
      tabulate img.height (fun i => tabulate img.width (fun j => img.atPix j i))⟩
        : Image) = img :=
    Image.eq_mkImage_of_wf hl (fun r hr => (hrw r hr).1)
  unfold Image.load
  rw [hshape, readToken_P5]
  dsimp only
  rw [if_pos rfl, h2]
  dsimp only
  rw [h3]
  dsimp only
  rw [h4]
  dsimp only
  rw [List.drop_one, List.tail_cons, h6, himg]

/-- Witness for C2: round trip of the concrete 2×2 image `[[1,2],[3,4]]`. -/
theorem claim_C2_save_load_roundtrip_witness :
    (⟨2, 2, [[1, 2], [3, 4]]⟩ : Image).wf ∧
    1 ≤ (⟨2, 2, [[1, 2], [3, 4]]⟩ : Image).width ∧
    1 ≤ (⟨2, 2, [[1, 2], [3, 4]]⟩ : Image).height ∧
    Image.load (Image.save ⟨2, 2, [[1, 2], [3, 4]]⟩)
      = some ⟨2, 2, [[1, 2], [3, 4]]⟩ :=
  ⟨by decide, by decide, by decide,
    claim_C2_save_load_roundtrip _ (by decide) (by decide) (by decide)⟩
